import Mathlib

/-!
# Verification of the Replication-in-DMQ control plane

Shallow embedding of the coordinator / broker / health-monitor code of the
distributed message queue (files `coordinator/hashRing.js`,
`coordinator/server.js`, the `HealthMonitor` class and the broker node
server), together with proofs and refutations of the specification's claims.

Machine integers of the source (32-bit ring positions) are modelled as `Nat`
with explicit `% 2^32`.  Timestamps (`lastCheck`, `lastSuccess`, `failedAt`,
ISO strings) carry no control-flow weight in any claim and are omitted from
the state records.  Outbound HTTP calls are modelled by boolean oracles,
and the SHA-256-to-32-bit digest of `hashRing.js` is abstracted as an
arbitrary hash-function field of the ring, since every claimed property is
about the ring algorithm, not about SHA-256 itself.

The file is organised as: all definitions (the embedding), then all
theorems (the claims and their supporting lemmas).
-/

namespace DMQ

/-! ## Health monitor (`HealthMonitor`, consumer.js side file) -/

/-- Health status of a broker, as tracked by `HealthMonitor.nodeHealth`
(strings `'HEALTHY'`, `'FAILED'`, `'FAILED_OVER'`, `'RECOVERED'` in the
source). -/
inductive Status where
  | HEALTHY
  | FAILED
  | FAILED_OVER
  | RECOVERED
deriving DecidableEq, Repr

open Status

/-- Per-broker health record (`{ status, failCount, ... }` in
`HealthMonitor`); the timestamp fields are omitted. -/
structure HealthRec where
  status : Status
  failCount : Nat
deriving DecidableEq, Repr

/-- Initial health record installed by `HealthMonitor.init()`:
`{ status: 'HEALTHY', failCount: 0 }`. -/
def initRec : HealthRec := ⟨HEALTHY, 0⟩

/-- Events emitted by one per-broker probe handling inside
`HealthMonitor._checkAll`: the `onFailure` resp. `onRecovery` callbacks. -/
inductive HMEvent where
  | fireFailure
  | fireRecovery
deriving DecidableEq, Repr

/-- One broker's handling of one probe result inside
`HealthMonitor._checkAll`: on a successful probe, a node in state FAILED or
FAILED_OVER becomes RECOVERED with `failCount = 0` and `onRecovery` fires,
any other node becomes HEALTHY with `failCount = 0`; on a failed probe
`failCount` is incremented and, exactly when the new count reaches the
threshold while the status is HEALTHY, the node becomes FAILED and
`onFailure` fires. -/
def healthStep (threshold : Nat) (rec : HealthRec) (ok : Bool) :
    HealthRec × Option HMEvent :=
  if ok then
    if rec.status = FAILED ∨ rec.status = FAILED_OVER then
      (⟨RECOVERED, 0⟩, some HMEvent.fireRecovery)
    else
      (⟨HEALTHY, 0⟩, none)
  else
    let fc := rec.failCount + 1
    if threshold ≤ fc ∧ rec.status = HEALTHY then
      (⟨FAILED, fc⟩, some HMEvent.fireFailure)
    else
      ({ rec with failCount := fc }, none)

/-- `markFailedOver`: the failover controller stamps the record FAILED_OVER,
leaving `failCount` alone. -/
def markFailedOver (rec : HealthRec) : HealthRec :=
  { rec with status := FAILED_OVER }

/-- Iterate `healthStep` over a list of probe outcomes (`true` = probe ok),
returning the final record. -/
def runProbes (threshold : Nat) (rec : HealthRec) : List Bool → HealthRec
  | [] => rec
  | ok :: rest => runProbes threshold (healthStep threshold rec ok).1 rest

/-- `n` consecutive failed probes. -/
def fails (n : Nat) : List Bool := List.replicate n false

/-! ## Association-list maps

JS `Map` objects (`ring`, `nodes`, `promotedNodes`, `nodeHealth`) and plain
objects used as dictionaries (`messageStore`) are modelled as association
lists with `aset` = `Map.set` / property assignment (overwrite or append),
`alookup` = `Map.get`, `aerase` = `Map.delete`. -/

def alookup {α β : Type} [DecidableEq α] : List (α × β) → α → Option β
  | [], _ => none
  | (k, v) :: rest, a => if a = k then some v else alookup rest a

def aset {α β : Type} [DecidableEq α] : List (α × β) → α → β → List (α × β)
  | [], a, b => [(a, b)]
  | (k, v) :: rest, a, b =>
    if a = k then (k, b) :: rest else (k, v) :: aset rest a b

def aerase {α β : Type} [DecidableEq α] : List (α × β) → α → List (α × β)
  | [], _ => []
  | (k, v) :: rest, a => if a = k then rest else (k, v) :: aerase rest a

/-- One step of duplicate-suppressing collection: append `n` unless already
seen (the `seenNodes` check of `getNodesForKey`). -/
def dedupStep {α : Type} [DecidableEq α] (acc : List α) (n : α) : List α :=
  if n ∈ acc then acc else acc ++ [n]

/-- Collapse a list to its distinct elements, keeping first occurrences in
order. -/
def firstDedup {α : Type} [DecidableEq α] (l : List α) : List α :=
  l.foldl dedupStep []

/-! ## Broker node: the `/store` handler

Embedding of `app.post('/store')` of the broker server: validate the body,
write the entry locally with `role: 'primary'`, then POST `/replicate` to
each URL in `replicateTo` in order, collecting a per-replica result of
`'success'` or `'failed'`; replica outcomes never touch the local store or
the 201/`success: true` response.  Outbound replication outcomes are an
oracle `replicaOk`; the append-only `replicationLog` audit entries carry no
claim-relevant state and are represented by the emitted action trace. -/

structure MsgEntry where
  payload : String
  role : String
  replicaOf : Option String
deriving DecidableEq, Repr

structure RepResult where
  node : String
  status : String
deriving DecidableEq, Repr

structure StoreResponse where
  statusCode : Nat
  success : Bool
  role : String
  replicationResults : List RepResult
deriving DecidableEq, Repr

/-- Observable side-effecting steps of the `/store` handler, in program
order: the local `messageStore[key] = ...` write, then one `/replicate`
POST per replica URL. -/
inductive BrokerAction where
  | localWrite (key : String) (role : String)
  | replicatePost (url : String)
deriving DecidableEq, Repr

/-- `app.post('/store')`: returns the updated `messageStore`, the HTTP
response, and the ordered trace of performed actions.  `key`/`payload`
absent (or `key` the empty string, which is falsy in JS) yields a 400 with
no side effect. -/
def storeHandler (store : List (String × MsgEntry)) (key payload : Option String)
    (replicateTo : List String) (replicaOk : String → Bool) :
    List (String × MsgEntry) × StoreResponse × List BrokerAction :=
  if key = none ∨ key = some "" ∨ payload = none then
    (store, ⟨400, false, "", []⟩, [])
  else
    let k := key.getD ""
    let p := payload.getD ""
    let store1 := aset store k ⟨p, "primary", none⟩
    let results := replicateTo.map fun url =>
      if replicaOk url then RepResult.mk url "success"
      else RepResult.mk url "failed"
    (store1, ⟨201, true, "primary", results⟩,
      BrokerAction.localWrite k "primary" :: replicateTo.map BrokerAction.replicatePost)

/-! ## Consistent hash ring (`hashRing.js`)

`hashSpace = 2^32`.  The `hash` method (SHA-256 digest, first 8 hex digits,
`% hashSpace`) is abstracted as the ring's `hashFn` followed by the explicit
`% hashSpace`; every claim about the ring is hash-generic. -/

def hashSpace : Nat := 2 ^ 32

/-- The `HashRing` class state: `ring` is the position → nodeName map,
`sortedPositions` the sorted array of virtual-node positions, `nodes` the
nodeName → `{url, virtualPositions}` map (insertion-ordered, as a JS `Map`). -/
structure HashRing where
  virtualNodeCount : Nat
  hashFn : String → Nat
  ring : List (Nat × String)
  sortedPositions : List Nat
  nodes : List (String × (String × List Nat))

/-- A fresh ring (`new HashRing(virtualNodeCount)`). -/
def HashRing.mkEmpty (v : Nat) (h : String → Nat) : HashRing :=
  ⟨v, h, [], [], []⟩

/-- `hash(key)`: digest collapsed into `[0, 2^32)`. -/
def HashRing.hash (r : HashRing) (key : String) : Nat :=
  r.hashFn key % hashSpace

/-- The virtual-node label `` `${nodeName}:vnode${i}` ``. -/
def vnodeLabel (nodeName : String) (i : Nat) : String :=
  nodeName ++ ":vnode" ++ toString i

/-- The collision loop of `addNode`:
`while (this.ring.has(position)) position = (position + 1) % this.hashSpace`.
Structured on a fuel argument; `addNode` passes `hashSpace` fuel, enough to
scan the entire space once. -/
def probe (occupied : Nat → Bool) : Nat → Nat → Nat
  | 0, position => position
  | fuel + 1, position =>
    if occupied position then probe occupied fuel ((position + 1) % hashSpace)
    else position

/-- `addNode(nodeName, url)`: for each `i < virtualNodeCount`, hash the
vnode label, linear-probe to a free position, insert it into `ring` and
append it to `virtualPositions`; afterwards re-sort `sortedPositions`
(ascending numeric sort) and register the node. -/
def HashRing.addNode (r : HashRing) (nodeName url : String) : HashRing :=
  let st := (List.range r.virtualNodeCount).foldl
    (fun (st : List (Nat × String) × List Nat) i =>
      let position := probe (fun q => (alookup st.1 q).isSome) hashSpace
        (r.hash (vnodeLabel nodeName i))
      (aset st.1 position nodeName, st.2 ++ [position]))
    (r.ring, [])
  { r with
    ring := st.1
    sortedPositions := (r.sortedPositions ++ st.2).insertionSort (· ≤ ·)
    nodes := aset r.nodes nodeName (url, st.2) }

/-- `removeNode(nodeName)`: delete each of the node's virtual positions
from `ring` and from `sortedPositions` (splice of the first index found),
then drop the node record.  Unknown names are a no-op. -/
def HashRing.removeNode (r : HashRing) (nodeName : String) : HashRing :=
  match alookup r.nodes nodeName with
  | none => r
  | some (_, vpos) =>
    { r with
      ring := vpos.foldl (fun rg p => aerase rg p) r.ring
      sortedPositions := vpos.foldl (fun sp p => sp.erase p) r.sortedPositions
      nodes := aerase r.nodes nodeName }

/-- The loop of `_findClockwiseIndex`: binary search for the first sorted
position `≥ keyPosition`, maintaining `[left, right)`. -/
def bsearchGo (ps : List Nat) (keyPosition : Nat) (left right : Nat) : Nat :=
  if h : left < right then
    let mid := (left + right) / 2
    if ps.getD mid 0 < keyPosition then bsearchGo ps keyPosition (mid + 1) right
    else bsearchGo ps keyPosition left mid
  else left
termination_by right - left
decreasing_by
  · omega
  · omega

/-- `_findClockwiseIndex(keyPosition)`: binary search over
`sortedPositions`, wrapping to index 0 when the search runs off the end. -/
def HashRing.findClockwiseIndex (r : HashRing) (keyPosition : Nat) : Nat :=
  let left := bsearchGo r.sortedPositions keyPosition 0 r.sortedPositions.length
  if r.sortedPositions.length ≤ left then 0 else left

/-- The sequence of broker names met when walking the ring clockwise from
sorted-position index `start`, one entry per virtual node, for one full
revolution (`this.ring.get(this.sortedPositions[(startIndex + i) % total])`
for `i < total`).  A position absent from `ring` — impossible in states
built by `addNode` — reads as `""`, matching the `Option.getD` below. -/
def ringWalkNames (r : HashRing) (start : Nat) : List String :=
  (List.range r.sortedPositions.length).map fun i =>
    (alookup r.ring
      (r.sortedPositions.getD ((start + i) % r.sortedPositions.length) 0)).getD ""

/-- The collection loop of `getNodesForKey`: walk clockwise from the
`_findClockwiseIndex` start, gathering distinct broker names until
`replicationFactor` are found or all positions have been scanned. -/
def HashRing.assignedNodes (r : HashRing) (key : String)
    (replicationFactor : Nat) : List String :=
  let startIndex := r.findClockwiseIndex (r.hash key)
  let total := r.sortedPositions.length
  (List.range total).foldl
    (fun acc i =>
      if acc.length < replicationFactor then
        let position := r.sortedPositions.getD ((startIndex + i) % total) 0
        let nodeName := (alookup r.ring position).getD ""
        if nodeName ∈ acc then acc else acc ++ [nodeName]
      else acc)
    []

/-- Result record of `getNodesForKey`:
`const [primary, ...replicas] = assignedNodes` (`primary` is `undefined`
when the destructured list is empty, hence an `Option`). -/
structure KeyNodes where
  primary : Option String
  replicas : List String
  keyHash : Nat
deriving DecidableEq, Repr

/-- `getNodesForKey(key, replicationFactor)`: throws
`'Hash ring is empty'` when no nodes are registered, otherwise returns the
primary / replicas split of the clockwise walk. -/
def HashRing.getNodesForKey (r : HashRing) (key : String)
    (replicationFactor : Nat) : Except String KeyNodes :=
  if r.nodes.length = 0 then .error "Hash ring is empty"
  else
    let assigned := r.assignedNodes key replicationFactor
    .ok ⟨assigned.head?, assigned.tail, r.hash key⟩

/-- `getAllNodeNames()`: the registered broker names in `Map` insertion
order. -/
def HashRing.getAllNodeNames (r : HashRing) : List String :=
  r.nodes.map Prod.fst

/-- A small deterministic stand-in digest used to instantiate witnesses and
counterexamples on concrete rings (the ring algorithm is hash-generic; see
the module comment). -/
def demoHash : String → Nat := fun s =>
  if s = "node-a:vnode0" then 100 else
  if s = "node-a:vnode1" then 200 else
  if s = "node-b:vnode0" then 100 else
  if s = "node-b:vnode1" then 300 else
  if s = "node-c:vnode0" then 400 else
  if s = "node-c:vnode1" then 500 else
  if s = "k1" then 150 else
  if s = "kbig" then 4000000000 else
  0

/-- Demo ring with one broker, built by `addNode` from an empty ring
(positions 100 and 200). -/
def demoRingA : HashRing :=
  (HashRing.mkEmpty 2 demoHash).addNode "node-a" "http://a"

/-- Demo ring with two brokers; `node-b:vnode0` collides with
`node-a:vnode0` at 100 and probes to 101. -/
def demoRingAB : HashRing := demoRingA.addNode "node-b" "http://b"

/-- Demo ring with three brokers. -/
def demoRingABC : HashRing := demoRingAB.addNode "node-c" "http://c"

/-- Well-formedness of a ring state, as established by building it with
`addNode`: positions are strictly sorted; every sorted position is owned by
a registered broker; every registered broker owns at least one sorted
position; broker names are distinct. -/
structure RingWF (r : HashRing) : Prop where
  sorted : r.sortedPositions.Sorted (· < ·)
  owner : ∀ p ∈ r.sortedPositions,
    ∃ n, alookup r.ring p = some n ∧ n ∈ r.getAllNodeNames
  covers : ∀ n ∈ r.getAllNodeNames,
    ∃ p ∈ r.sortedPositions, alookup r.ring p = some n
  names_nodup : r.getAllNodeNames.Nodup

/-! ## Coordinator failover state (`server.js`)

The coordinator keeps the broker list (the ring topology is immutable at
runtime), the health records, the `promotedNodes` override map and the
append-only `failoverEvents` log.  Outbound `/health` probes of one monitor
round and the `/promote` POST outcomes are boolean oracles `up` /
`promoteOk`; the `onFailure` callback runs inline at the point `_checkAll`
fires it. -/

structure FailoverEvent where
  failedNode : String
  promotedNode : String
deriving DecidableEq, Repr

structure CoordState where
  brokers : List String
  health : List (String × HealthRec)
  promoted : List (String × String)
  events : List FailoverEvent
deriving DecidableEq, Repr

/-- Coordinator start-up: brokers registered from `BROKER_NODES`,
`HealthMonitor.init()` installs HEALTHY records, no promotions, no
events. -/
def initCoord (brokers : List String) : CoordState :=
  ⟨brokers, brokers.map (fun n => (n, initRec)), [], []⟩

/-- Status of a broker's health record (HEALTHY when unmonitored). -/
def statusOf (s : CoordState) (n : String) : Status :=
  ((alookup s.health n).getD initRec).status

/-- `resolveEffectivePrimary(primary)`:
`promotedNodes.get(primary) || primary`. -/
def resolveEffectivePrimary (promoted : List (String × String))
    (primary : String) : String :=
  (alookup promoted primary).getD primary

/-- The candidate walk of `onFailure`: for `i = 1 .. allNodes.length - 1`,
probe `allNodes[(failedIndex + i) % allNodes.length]` via `/health`; the
first responsive candidate is selected. -/
def findCandidate (up : String → Bool) (allNodes : List String)
    (failedIndex : Nat) : Option String :=
  ((List.range' 1 (allNodes.length - 1)).find? fun i =>
    up (allNodes.getD ((failedIndex + i) % allNodes.length) "")).map fun i =>
    allNodes.getD ((failedIndex + i) % allNodes.length) ""

/-- The `onFailure` handler of `server.js`: walk clockwise through the
broker list for a responsive candidate; if none responds, return with the
system degraded; otherwise POST `/promote` — whose outcome `promoteOk` is
only logged, the `catch` swallows a failure — then insert the override,
mark the health record FAILED_OVER (`monitor.markFailedOver`) and append a
failover event. -/
def onFailure (up promoteOk : String → Bool) (s : CoordState)
    (failedNode : String) : CoordState :=
  match findCandidate up s.brokers (s.brokers.indexOf failedNode) with
  | none => s
  | some promotedNode =>
    let _ := promoteOk promotedNode
    { s with
      promoted := aset s.promoted failedNode promotedNode
      health :=
        match alookup s.health failedNode with
        | none => s.health
        | some h => aset s.health failedNode (markFailedOver h)
      events := s.events ++ [⟨failedNode, promotedNode⟩] }

/-- One broker's slice of `_checkAll` on the coordinator: run the health
step for this round's probe outcome and, when it fires `onFailure`, run the
failover handler inline. -/
def probeOne (threshold : Nat) (up promoteOk : String → Bool)
    (s : CoordState) (name : String) : CoordState :=
  match alookup s.health name with
  | none => s
  | some rec =>
    let step := healthStep threshold rec (up name)
    let s2 := { s with health := aset s.health name step.1 }
    match step.2 with
    | some HMEvent.fireFailure => onFailure up promoteOk s2 name
    | _ => s2

/-- One probe round of `HealthMonitor._checkAll` over every monitored
broker, in registration order. -/
def probeRound (threshold : Nat) (up promoteOk : String → Bool)
    (s : CoordState) : CoordState :=
  s.brokers.foldl (probeOne threshold up promoteOk) s

/-- Coordinator states reachable from start-up by probe rounds (broker
names are distinct, being keys of the `nodes` map). -/
inductive Reachable (threshold : Nat) (brokers : List String) :
    CoordState → Prop where
  | init : brokers.Nodup → Reachable threshold brokers (initCoord brokers)
  | step : ∀ (s : CoordState) (up promoteOk : String → Bool),
      Reachable threshold brokers s →
      Reachable threshold brokers (probeRound threshold up promoteOk s)

/-- Override-map invariant: a FAILED_OVER broker always has an override
entry pointing to a different broker. -/
def PromotedInv (s : CoordState) : Prop :=
  ∀ x, statusOf s x = FAILED_OVER →
    ∃ y, alookup s.promoted x = some y ∧ y ≠ x

/-- The `/produce` routing of `server.js`: effective primary through the
override map; replicas are the raw replicas mapped through the override and
filtered against the effective primary — the source applies no dedup. -/
def produceReplicas (promoted : List (String × String)) (rawPrimary : String)
    (rawReplicas : List String) : String × List String :=
  let primary := resolveEffectivePrimary promoted rawPrimary
  (primary,
    (rawReplicas.map (resolveEffectivePrimary promoted)).filter
      (fun n => n ≠ primary))

/-- Modelled from the spec (§4.5 produce step 3 and invariant (I2)):
`replicas := dedup(map(rawReplicas, r → override[r] ?? r))` with the
effective primary removed — duplicates collapsed.  Written from the spec
for comparison with the source-derived `produceReplicas`. -/
def specReplicas (promoted : List (String × String)) (rawPrimary : String)
    (rawReplicas : List String) : List String :=
  let primary := resolveEffectivePrimary promoted rawPrimary
  (firstDedup (rawReplicas.map (resolveEffectivePrimary promoted))).filter
    (fun n => n ≠ primary)

/-- The list of virtual positions `addNode` computes for `nodeName` when
probing against the occupied map `ringMap` (the node's probing
environment). -/
def addPositions (hashFn : String → Nat) (v : Nat)
    (ringMap : List (Nat × String)) (nodeName : String) : List Nat :=
  ((List.range v).foldl
    (fun (st : List (Nat × String) × List Nat) i =>
      let position := probe (fun q => (alookup st.1 q).isSome) hashSpace
        (hashFn (vnodeLabel nodeName i) % hashSpace)
      (aset st.1 position nodeName, st.2 ++ [position]))
    (ringMap, [])).2

/-! ### Concrete oracles and states for counterexamples and witnesses -/

def cexTrue : String → Bool := fun _ => true

def cexFalse : String → Bool := fun _ => false

/-- Probe oracle: every broker but `node-a` responds. -/
def cexDownA : String → Bool := fun n => !(n == "node-a")

/-- Probe oracle: only `node-c` responds. -/
def cexOnlyC : String → Bool := fun n => n == "node-c"

/-- Six probe rounds at threshold 3 over `[node-a, node-b, node-c]`: three
rounds with `node-a` down (failover a → b), then three rounds with `node-a`
and `node-b` down (failover b → c).  Afterwards the override still maps
`node-a` to `node-b`, which is itself FAILED_OVER. -/
def cexChainState : CoordState :=
  probeRound 3 cexOnlyC cexTrue (probeRound 3 cexOnlyC cexTrue
    (probeRound 3 cexOnlyC cexTrue (probeRound 3 cexDownA cexTrue
      (probeRound 3 cexDownA cexTrue (probeRound 3 cexDownA cexTrue
        (initCoord ["node-a", "node-b", "node-c"]))))))

/-- Three probe rounds at threshold 3 with `node-a` down while every
`/promote` POST fails (`promoteOk` constantly false). -/
def cexPromoteFailState : CoordState :=
  probeRound 3 cexDownA cexFalse (probeRound 3 cexDownA cexFalse
    (probeRound 3 cexDownA cexFalse
      (initCoord ["node-a", "node-b", "node-c"])))

/-- Digest for the remove/re-add counterexample: `X:vnode0` and `Y:vnode0`
collide at position 5. -/
def cexHash9 : String → Nat := fun s =>
  if s = "X:vnode0" then 5 else
  if s = "Y:vnode0" then 5 else 0

/-- Build: add `Y` (takes 5), add `X` (collides, probes to 6), remove `Y`
(frees 5).  `X`'s recorded position 6 no longer matches its probing
environment. -/
def cexRing9 : HashRing :=
  (((HashRing.mkEmpty 1 cexHash9).addNode "Y" "uY").addNode "X" "uX").removeNode "Y"

end DMQ

namespace DMQ

open Status

/-! ## Theorems: health monitor (claims C4 and C10) -/

theorem healthStep_fail_of_healthy (threshold : Nat) (fc : Nat) :
    healthStep threshold ⟨HEALTHY, fc⟩ false =
      if threshold ≤ fc + 1 then (⟨FAILED, fc + 1⟩, some HMEvent.fireFailure)
      else (⟨HEALTHY, fc + 1⟩, none) := by
  by_cases h : threshold ≤ fc + 1 <;> simp [healthStep, h]

theorem healthStep_fail_of_not_healthy (threshold : Nat) (s : Status) (fc : Nat)
    (h : s ≠ HEALTHY) :
    healthStep threshold ⟨s, fc⟩ false = (⟨s, fc + 1⟩, none) := by
  simp [healthStep, h]

theorem runProbes_fails_not_healthy (threshold : Nat) (s : Status)
    (h : s ≠ HEALTHY) :
    ∀ m fc, runProbes threshold ⟨s, fc⟩ (fails m) = ⟨s, fc + m⟩ := by
  intro m
  induction m with
  | zero => intro fc; simp [fails, runProbes]
  | succ m ih =>
    intro fc
    have hr : fails (m + 1) = false :: fails m := rfl
    rw [hr]
    simp only [runProbes, healthStep_fail_of_not_healthy threshold s fc h]
    rw [ih]
    simp
    omega

theorem runProbes_fails_failed (threshold : Nat) :
    ∀ m fc, runProbes threshold ⟨FAILED, fc⟩ (fails m) = ⟨FAILED, fc + m⟩ :=
  runProbes_fails_not_healthy threshold FAILED (by simp)

theorem runProbes_fails_healthy (threshold : Nat) :
    ∀ n fc, fc < threshold →
      runProbes threshold ⟨HEALTHY, fc⟩ (fails n) =
        ⟨if threshold ≤ fc + n then FAILED else HEALTHY, fc + n⟩ := by
  intro n
  induction n with
  | zero =>
    intro fc hfc
    simp only [fails, List.replicate, runProbes]
    rw [if_neg (by omega)]
    simp
  | succ n ih =>
    intro fc hfc
    have h : fails (n + 1) = false :: fails n := rfl
    rw [h]
    simp only [runProbes, healthStep_fail_of_healthy]
    by_cases hthr : threshold ≤ fc + 1
    · simp only [if_pos hthr]
      rw [runProbes_fails_failed]
      have h1 : threshold ≤ fc + (n + 1) := by omega
      simp [h1]
      omega
    · simp only [if_neg hthr]
      rw [ih (fc + 1) (by omega)]
      have h3 : fc + 1 + n = fc + (n + 1) := by omega
      rw [h3]

/-- **C4.** Health transitions of `HealthMonitor._checkAll`: starting from
the initial HEALTHY record, the status is FAILED after `n` consecutive probe
failures exactly when `n` reaches the threshold `T`; a successful probe on a
HEALTHY node resets `failCount` to 0 (so intervening successes restart the
count); and a node in state FAILED or FAILED_OVER transitions to RECOVERED
after a single successful probe with `failCount` reset to 0. -/
theorem claim_C4_health_step_thresholds (T n fc : Nat) (rec : HealthRec)
    (hT : 1 ≤ T) :
    ((runProbes T initRec (fails n)).status = FAILED ↔ T ≤ n) ∧
    healthStep T ⟨HEALTHY, fc⟩ true = (⟨HEALTHY, 0⟩, none) ∧
    (rec.status = FAILED ∨ rec.status = FAILED_OVER →
      healthStep T rec true = (⟨RECOVERED, 0⟩, some HMEvent.fireRecovery)) := by
  refine ⟨?_, by simp [healthStep], fun h => by simp [healthStep, h]⟩
  have h0 : initRec = (⟨HEALTHY, 0⟩ : HealthRec) := rfl
  rw [h0, runProbes_fails_healthy T n 0 (by omega)]
  by_cases h : T ≤ n <;> simp [h]

/-- Closed instance of `claim_C4_health_step_thresholds` at T = 3, n = 3. -/
theorem claim_C4_witness :
    (1 ≤ 3) ∧
    (((runProbes 3 initRec (fails 3)).status = FAILED ↔ 3 ≤ 3) ∧
      healthStep 3 ⟨HEALTHY, 1⟩ true = (⟨HEALTHY, 0⟩, none) ∧
      ((HealthRec.mk FAILED 2).status = FAILED ∨
          (HealthRec.mk FAILED 2).status = FAILED_OVER →
        healthStep 3 ⟨FAILED, 2⟩ true = (⟨RECOVERED, 0⟩, some HMEvent.fireRecovery))) :=
  ⟨by decide, claim_C4_health_step_thresholds 3 3 1 ⟨FAILED, 2⟩ (by decide)⟩

/-- **C10.** A RECOVERED broker is latched: any number of consecutive probe
failures leaves the status RECOVERED (only `failCount` grows), the
fail-branch never emits `onFailure` from such a state (the FAILED transition
is guarded by `status === 'HEALTHY'`), and a single successful probe sets
the status back to HEALTHY with `failCount = 0`, re-arming detection. -/
theorem claim_C10_recovered_never_refails (T fc n : Nat) :
    runProbes T ⟨RECOVERED, fc⟩ (fails n) = ⟨RECOVERED, fc + n⟩ ∧
    (∀ m, (healthStep T (runProbes T ⟨RECOVERED, fc⟩ (fails m)) false).2 = none) ∧
    healthStep T ⟨RECOVERED, fc⟩ true = (⟨HEALTHY, 0⟩, none) := by
  refine ⟨runProbes_fails_not_healthy T RECOVERED (by simp) n fc, ?_,
    by simp [healthStep]⟩
  intro m
  rw [runProbes_fails_not_healthy T RECOVERED (by simp) m fc]
  simp [healthStep]

/-! ## Theorems: association lists -/

theorem alookup_aset {α β : Type} [DecidableEq α]
    (l : List (α × β)) (a : α) (b : β) : alookup (aset l a b) a = some b := by
  induction l with
  | nil => simp [aset, alookup]
  | cons hd tl ih =>
    obtain ⟨k, v⟩ := hd
    by_cases h : a = k <;> simp [aset, alookup, h, ih]

/-! ## Theorems: broker `/store` handler (claim C6) -/

/-- **C6.** For `/store` with a well-formed body: the response is 201 with
`success = true` regardless of replica outcomes; the local entry is written
with role `primary` and is identical under any replica outcomes (replication
failure neither undoes the local write nor changes the status); the
replication results carry one entry per replica URL, in order, each
`success` or `failed` according to that replica's outcome; and the local
write precedes every replication attempt in the action trace. -/
theorem claim_C6_store_degraded_replication
    (store : List (String × MsgEntry)) (k p : String) (urls : List String)
    (ok1 ok2 : String → Bool) (hk : k ≠ "") :
    (storeHandler store (some k) (some p) urls ok1).2.1.statusCode = 201 ∧
    (storeHandler store (some k) (some p) urls ok1).2.1.success = true ∧
    alookup (storeHandler store (some k) (some p) urls ok1).1 k =
      some ⟨p, "primary", none⟩ ∧
    (storeHandler store (some k) (some p) urls ok2).1 =
      (storeHandler store (some k) (some p) urls ok1).1 ∧
    (storeHandler store (some k) (some p) urls ok1).2.1.replicationResults =
      urls.map (fun u =>
        if ok1 u then RepResult.mk u "success" else RepResult.mk u "failed") ∧
    (storeHandler store (some k) (some p) urls ok1).2.2 =
      BrokerAction.localWrite k "primary" :: urls.map BrokerAction.replicatePost := by
  have hguard : ¬(some k = none ∨ some k = some "" ∨ (some p : Option String) = none) := by
    simp [hk]
  simp only [storeHandler, if_neg hguard]
  refine ⟨?_, ?_, ?_, ?_, ?_, ?_⟩ <;>
    first
      | rfl
      | trivial
      | exact alookup_aset store k ⟨p, "primary", none⟩

/-- Closed instance of `claim_C6_store_degraded_replication`: key `order_1`,
one replica whose replication fails, one that succeeds. -/
theorem claim_C6_witness :
    ("order_1" ≠ "") ∧
    ((storeHandler [] (some "order_1") (some "p") ["u1", "u2"]
        (fun u => u == "u2")).2.1.statusCode = 201 ∧
      (storeHandler [] (some "order_1") (some "p") ["u1", "u2"]
        (fun u => u == "u2")).2.1.success = true ∧
      alookup (storeHandler [] (some "order_1") (some "p") ["u1", "u2"]
        (fun u => u == "u2")).1 "order_1" = some ⟨"p", "primary", none⟩ ∧
      (storeHandler [] (some "order_1") (some "p") ["u1", "u2"]
        (fun _ => true)).1 =
        (storeHandler [] (some "order_1") (some "p") ["u1", "u2"]
          (fun u => u == "u2")).1 ∧
      (storeHandler [] (some "order_1") (some "p") ["u1", "u2"]
        (fun u => u == "u2")).2.1.replicationResults =
        ["u1", "u2"].map (fun u =>
          if u == "u2" then RepResult.mk u "success" else RepResult.mk u "failed") ∧
      (storeHandler [] (some "order_1") (some "p") ["u1", "u2"]
        (fun u => u == "u2")).2.2 =
        BrokerAction.localWrite "order_1" "primary" ::
          ["u1", "u2"].map BrokerAction.replicatePost) :=
  ⟨by decide, claim_C6_store_degraded_replication [] "order_1" "p" ["u1", "u2"]
    (fun u => u == "u2") (fun _ => true) (by decide)⟩

/-! ## Theorems: hash ring routing (claims C5, C7, C8) -/

/-- **C8.** `getNodesForKey` fails exactly on an empty ring: the
`'Hash ring is empty'` error is raised for every key and every replication
factor when no broker is registered, and a non-empty ring never produces an
error. -/
theorem claim_C8_empty_ring_error (r : HashRing) (key : String) (R : Nat) :
    (∃ e, r.getNodesForKey key R = .error e) ↔ r.nodes = [] := by
  unfold HashRing.getNodesForKey
  by_cases h : r.nodes.length = 0
  · simp only [if_pos h]
    constructor
    · intro _
      exact List.length_eq_zero.mp h
    · intro _
      exact ⟨"Hash ring is empty", rfl⟩
  · simp only [if_neg h]
    constructor
    · rintro ⟨e, he⟩
      cases he
    · intro hn
      exact absurd (by simp [hn]) h

theorem bsearchGo_all_lt (ps : List Nat) (key : Nat) :
    ∀ fuel left right, right - left ≤ fuel → left ≤ right →
      (∀ i, left ≤ i → i < right → ps.getD i 0 < key) →
      bsearchGo ps key left right = right := by
  intro fuel
  induction fuel with
  | zero =>
    intro left right h1 h2 _
    unfold bsearchGo
    rw [dif_neg (by omega)]
    omega
  | succ fuel ih =>
    intro left right h1 h2 h3
    unfold bsearchGo
    by_cases h : left < right
    · rw [dif_pos h]
      have hmid : ps.getD ((left + right) / 2) 0 < key :=
        h3 _ (by omega) (by omega)
      simp only [if_pos hmid]
      exact ih ((left + right) / 2 + 1) right (by omega) (by omega)
        (fun i hi1 hi2 => h3 i (by omega) hi2)
    · rw [dif_neg h]
      omega

theorem bsearchGo_spec (ps : List Nat) (key : Nat)
    (hmono : ∀ i j, i ≤ j → j < ps.length → ps.getD i 0 ≤ ps.getD j 0) :
    ∀ fuel left right, right - left ≤ fuel → left ≤ right → right ≤ ps.length →
      (∀ i, i < left → ps.getD i 0 < key) →
      (∀ i, right ≤ i → i < ps.length → key ≤ ps.getD i 0) →
      left ≤ bsearchGo ps key left right ∧
      bsearchGo ps key left right ≤ right ∧
      (∀ i, i < bsearchGo ps key left right → ps.getD i 0 < key) ∧
      (∀ i, bsearchGo ps key left right ≤ i → i < ps.length →
        key ≤ ps.getD i 0) := by
  intro fuel
  induction fuel with
  | zero =>
    intro left right h1 h2 h3 h4 h5
    unfold bsearchGo
    rw [dif_neg (by omega)]
    exact ⟨le_refl _, h2, h4, fun i hi hil => h5 i (by omega) hil⟩
  | succ fuel ih =>
    intro left right h1 h2 h3 h4 h5
    unfold bsearchGo
    by_cases h : left < right
    · rw [dif_pos h]
      by_cases hmid : ps.getD ((left + right) / 2) 0 < key
      · simp only [if_pos hmid]
        have hrec := ih ((left + right) / 2 + 1) right (by omega) (by omega) h3
          (fun i hi => by
            have hile : ps.getD i 0 ≤ ps.getD ((left + right) / 2) 0 :=
              hmono i ((left + right) / 2) (by omega) (by omega)
            omega)
          h5
        exact ⟨by omega, hrec.2.1, hrec.2.2.1, hrec.2.2.2⟩
      · simp only [if_neg hmid]
        have hrec := ih left ((left + right) / 2) (by omega) (by omega) (by omega)
          h4
          (fun i hi hil => le_trans (by omega)
            (hmono ((left + right) / 2) i hi hil))
        exact ⟨hrec.1, by omega, hrec.2.2.1, hrec.2.2.2⟩
    · rw [dif_neg h]
      exact ⟨le_refl _, h2, h4, fun i hi hil => h5 i (by omega) hil⟩

theorem sorted_getD_mono (ps : List Nat) (hs : ps.Sorted (· < ·)) :
    ∀ i j, i ≤ j → j < ps.length → ps.getD i 0 ≤ ps.getD j 0 := by
  intro i j hij hj
  rcases Nat.eq_or_lt_of_le hij with h | h
  · rw [h]
  · have hlt := hs.rel_get_of_lt (a := ⟨i, by omega⟩) (b := ⟨j, hj⟩)
      (by simpa using h)
    rw [List.getD_eq_getElem ps 0 (by omega), List.getD_eq_getElem ps 0 hj]
    simpa using le_of_lt hlt

/-- `_findClockwiseIndex` returns either the least sorted-position index
holding a position `≥ keyPosition`, or 0 (wrap) when every position is
below `keyPosition`. -/
theorem findClockwiseIndex_spec (r : HashRing) (h : Nat)
    (hs : r.sortedPositions.Sorted (· < ·)) :
    (r.findClockwiseIndex h < r.sortedPositions.length ∧
      h ≤ r.sortedPositions.getD (r.findClockwiseIndex h) 0 ∧
      (∀ i, i < r.findClockwiseIndex h → r.sortedPositions.getD i 0 < h)) ∨
    (r.findClockwiseIndex h = 0 ∧
      (∀ i, i < r.sortedPositions.length → r.sortedPositions.getD i 0 < h)) := by
  have hspec := bsearchGo_spec r.sortedPositions h (sorted_getD_mono _ hs)
    r.sortedPositions.length 0 r.sortedPositions.length (by omega) (by omega)
    (le_refl _) (by omega) (by omega)
  unfold HashRing.findClockwiseIndex
  by_cases hend : r.sortedPositions.length ≤
      bsearchGo r.sortedPositions h 0 r.sortedPositions.length
  · right
    rw [if_pos hend]
    exact ⟨rfl, fun i hi => hspec.2.2.1 i (by omega)⟩
  · left
    rw [if_neg hend]
    exact ⟨by omega, hspec.2.2.2 _ (le_refl _) (by omega), hspec.2.2.1⟩

theorem dedupFoldl_extend {α : Type} [DecidableEq α] :
    ∀ (l : List α) (acc : List α), ∃ t, l.foldl dedupStep acc = acc ++ t := by
  intro l
  induction l with
  | nil => intro acc; exact ⟨[], by simp⟩
  | cons x l ih =>
    intro acc
    simp only [List.foldl_cons]
    by_cases h : x ∈ acc
    · simpa [dedupStep, h] using ih acc
    · obtain ⟨t, ht⟩ := ih (acc ++ [x])
      exact ⟨[x] ++ t, by simp [dedupStep, h, ht]⟩

theorem guardedFoldl_eq_take {α : Type} [DecidableEq α] (R : Nat) :
    ∀ (l : List α) (acc : List α), acc.length ≤ R →
      l.foldl (fun acc n => if acc.length < R then dedupStep acc n else acc) acc =
        (l.foldl dedupStep acc).take R := by
  intro l
  induction l with
  | nil =>
    intro acc hacc
    simpa using (List.take_of_length_le hacc).symm
  | cons x l ih =>
    intro acc hacc
    simp only [List.foldl_cons]
    by_cases h : acc.length < R
    · rw [if_pos h]
      refine ih (dedupStep acc x) ?_
      by_cases hm : x ∈ acc
      · simpa [dedupStep, hm] using hacc
      · simp [dedupStep, hm]
        omega
    · rw [if_neg h]
      have hlen : acc.length = R := by omega
      rw [ih acc hacc]
      by_cases hm : x ∈ acc
      · rw [show dedupStep acc x = acc from by simp [dedupStep, hm]]
      · obtain ⟨t, ht⟩ := dedupFoldl_extend l acc
        obtain ⟨t', ht'⟩ := dedupFoldl_extend l (dedupStep acc x)
        rw [ht, ht']
        rw [show dedupStep acc x = acc ++ [x] from by simp [dedupStep, hm]]
        rw [← hlen, List.take_left, List.append_assoc, List.take_left]

/-- The collection loop of `getNodesForKey` equals: walk one revolution
clockwise from the start index, collapse to first-occurrence-distinct broker
names, truncate to the replication factor. -/
theorem assignedNodes_eq_take_firstDedup (r : HashRing) (key : String) (R : Nat) :
    r.assignedNodes key R =
      (firstDedup (ringWalkNames r (r.findClockwiseIndex (r.hash key)))).take R := by
  have h := guardedFoldl_eq_take R
    ((List.range r.sortedPositions.length).map fun i =>
      (alookup r.ring
        (r.sortedPositions.getD
          ((r.findClockwiseIndex (r.hash key) + i) % r.sortedPositions.length) 0)).getD "")
    [] (by simp)
  rw [List.foldl_map] at h
  exact h

theorem firstDedup_head? {α : Type} [DecidableEq α] (l : List α) :
    (firstDedup l).head? = l.head? := by
  cases l with
  | nil => rfl
  | cons x l =>
    unfold firstDedup
    simp only [List.foldl_cons]
    rw [show dedupStep ([] : List α) x = [x] from by simp [dedupStep]]
    obtain ⟨t, ht⟩ := dedupFoldl_extend l [x]
    rw [ht]
    rfl

/-- **C7.** Wrap-around: when the key's hash is strictly greater than every
virtual-node position, `_findClockwiseIndex` returns 0, so the clockwise
walk of `getNodesForKey` starts at the broker owning the smallest sorted
position (index 0) and proceeds in index order from there. -/
theorem claim_C7_wraparound (r : HashRing) (key : String) (R : Nat)
    (hne : r.sortedPositions ≠ [])
    (hgt : ∀ p ∈ r.sortedPositions, p < r.hash key) :
    r.findClockwiseIndex (r.hash key) = 0 ∧
    r.assignedNodes key R = (firstDedup (ringWalkNames r 0)).take R ∧
    (1 ≤ R → (r.assignedNodes key R).head? =
      some ((alookup r.ring (r.sortedPositions.getD 0 0)).getD "")) := by
  have hlen : 0 < r.sortedPositions.length := List.length_pos.mpr hne
  have hzero : r.findClockwiseIndex (r.hash key) = 0 := by
    unfold HashRing.findClockwiseIndex
    have hall := bsearchGo_all_lt r.sortedPositions (r.hash key)
      r.sortedPositions.length 0 r.sortedPositions.length (by omega) (by omega)
      (fun i _ hi => by
        rw [List.getD_eq_getElem _ _ hi]
        exact hgt _ (List.getElem_mem hi))
    rw [hall, if_pos (le_refl _)]
  refine ⟨hzero, by rw [assignedNodes_eq_take_firstDedup, hzero], ?_⟩
  intro hR
  rw [assignedNodes_eq_take_firstDedup, hzero]
  rw [List.head?_take, if_neg (by omega), firstDedup_head?]
  unfold ringWalkNames
  obtain ⟨k, hk⟩ : ∃ k, r.sortedPositions.length = k + 1 :=
    ⟨r.sortedPositions.length - 1, by omega⟩
  rw [hk, List.range_succ_eq_map]
  simp

/-- Closed instance of `claim_C7_wraparound` on `demoRingA` (positions 100
and 200) with a key hashing to 4000000000, beyond every position. -/
theorem claim_C7_witness :
    (demoRingA.sortedPositions ≠ [] ∧
      (∀ p ∈ demoRingA.sortedPositions, p < demoRingA.hash "kbig")) ∧
    (demoRingA.findClockwiseIndex (demoRingA.hash "kbig") = 0 ∧
      demoRingA.assignedNodes "kbig" 3 =
        (firstDedup (ringWalkNames demoRingA 0)).take 3 ∧
      (1 ≤ 3 → (demoRingA.assignedNodes "kbig" 3).head? =
        some ((alookup demoRingA.ring (demoRingA.sortedPositions.getD 0 0)).getD ""))) :=
  ⟨⟨by decide, by decide⟩,
    claim_C7_wraparound demoRingA "kbig" 3 (by decide) (by decide)⟩

theorem mem_dedupFoldl {α : Type} [DecidableEq α] :
    ∀ (l acc : List α) (x : α), x ∈ l.foldl dedupStep acc → x ∈ acc ∨ x ∈ l := by
  intro l
  induction l with
  | nil => intro acc x hx; exact Or.inl hx
  | cons y l ih =>
    intro acc x hx
    simp only [List.foldl_cons] at hx
    rcases ih (dedupStep acc y) x hx with h | h
    · by_cases hm : y ∈ acc
      · simp only [dedupStep, if_pos hm] at h
        exact Or.inl h
      · simp only [dedupStep, if_neg hm, List.mem_append, List.mem_singleton] at h
        rcases h with h | rfl
        · exact Or.inl h
        · exact Or.inr (List.mem_cons_self _ _)
    · exact Or.inr (List.mem_cons_of_mem _ h)

theorem dedupFoldl_mem_of_mem {α : Type} [DecidableEq α] :
    ∀ (l acc : List α) (x : α), x ∈ acc ∨ x ∈ l → x ∈ l.foldl dedupStep acc := by
  intro l
  induction l with
  | nil =>
    intro acc x h
    simpa using h
  | cons y l ih =>
    intro acc x h
    simp only [List.foldl_cons]
    apply ih
    rcases h with h | h
    · left
      by_cases hm : y ∈ acc <;> simp [dedupStep, hm, h]
    · rcases List.mem_cons.mp h with rfl | h
      · left
        by_cases hm : x ∈ acc <;> simp [dedupStep, hm]
      · exact Or.inr h

theorem dedupFoldl_nodup {α : Type} [DecidableEq α] :
    ∀ (l acc : List α), acc.Nodup → (l.foldl dedupStep acc).Nodup := by
  intro l
  induction l with
  | nil => intro acc h; exact h
  | cons y l ih =>
    intro acc h
    simp only [List.foldl_cons]
    apply ih
    by_cases hm : y ∈ acc
    · simpa [dedupStep, hm] using h
    · rw [show dedupStep acc y = acc ++ [y] from by simp [dedupStep, hm]]
      simp [List.nodup_append, h, hm]

theorem firstDedup_nodup {α : Type} [DecidableEq α] (l : List α) :
    (firstDedup l).Nodup :=
  dedupFoldl_nodup l [] List.nodup_nil

theorem mem_firstDedup_iff {α : Type} [DecidableEq α] (l : List α) (x : α) :
    x ∈ firstDedup l ↔ x ∈ l :=
  ⟨fun h => (mem_dedupFoldl l [] x h).resolve_left (by simp),
    fun h => dedupFoldl_mem_of_mem l [] x (Or.inr h)⟩

theorem exists_shift_mod (total s j : Nat) (h : j < total) :
    ∃ i, i < total ∧ (s + i) % total = j := by
  have hst : s % total < total := Nat.mod_lt _ (by omega)
  refine ⟨(total - s % total + j) % total, Nat.mod_lt _ (by omega), ?_⟩
  rw [← Nat.mod_add_mod, Nat.add_mod_mod,
    show s % total + (total - s % total + j) = total + j from by omega,
    Nat.add_mod_left]
  exact Nat.mod_eq_of_lt h

/-- Every name met on a ring walk is a registered broker name. -/
theorem ringWalkNames_subset_names (r : HashRing) (hwf : RingWF r) (s : Nat) :
    ∀ x ∈ ringWalkNames r s, x ∈ r.getAllNodeNames := by
  intro x hx
  unfold ringWalkNames at hx
  rcases List.mem_map.mp hx with ⟨i, hi, rfl⟩
  have hi' : i < r.sortedPositions.length := List.mem_range.mp hi
  have hidx : (s + i) % r.sortedPositions.length < r.sortedPositions.length :=
    Nat.mod_lt _ (by omega)
  rw [List.getD_eq_getElem _ _ hidx]
  obtain ⟨n, hn1, hn2⟩ := hwf.owner _ (List.getElem_mem hidx)
  rw [hn1]
  exact hn2

/-- Every registered broker name appears somewhere on a full ring walk. -/
theorem names_subset_ringWalkNames (r : HashRing) (hwf : RingWF r) (s : Nat) :
    ∀ n ∈ r.getAllNodeNames, n ∈ ringWalkNames r s := by
  intro n hn
  obtain ⟨p, hp, hlook⟩ := hwf.covers n hn
  obtain ⟨j, hj, hpj⟩ := List.getElem_of_mem hp
  obtain ⟨i, hi, hmod⟩ := exists_shift_mod r.sortedPositions.length s j hj
  unfold ringWalkNames
  refine List.mem_map.mpr ⟨i, List.mem_range.mpr hi, ?_⟩
  rw [hmod, List.getD_eq_getElem _ _ hj, hpj, hlook]
  rfl

/-- **C5.** On a well-formed non-empty ring, `getNodesForKey(k, R)` succeeds
and returns the primary/replicas split of a list `assigned` of pairwise
distinct broker names, of length at most `R` and at most the number of
registered brokers, equal to the clockwise walk from `_findClockwiseIndex`'s
start index collapsed to first occurrences and truncated at `R`; the start
index is the least sorted position `≥ hash(k)` (or 0 on wrap); and whenever
fewer than `R` names were gathered, every registered broker is included. -/
theorem claim_C5_getNodesForKey (r : HashRing) (key : String) (R : Nat)
    (hwf : RingWF r) (hne : r.nodes ≠ []) (hR : 1 ≤ R) :
    r.getNodesForKey key R =
      .ok ⟨(r.assignedNodes key R).head?, (r.assignedNodes key R).tail,
        r.hash key⟩ ∧
    r.assignedNodes key R =
      (firstDedup (ringWalkNames r (r.findClockwiseIndex (r.hash key)))).take R ∧
    (r.assignedNodes key R).Nodup ∧
    (r.assignedNodes key R).length ≤ R ∧
    (r.assignedNodes key R).length ≤ r.getAllNodeNames.length ∧
    ((r.assignedNodes key R).length < R →
      ∀ n ∈ r.getAllNodeNames, n ∈ r.assignedNodes key R) ∧
    ((r.findClockwiseIndex (r.hash key) < r.sortedPositions.length ∧
        r.hash key ≤ r.sortedPositions.getD (r.findClockwiseIndex (r.hash key)) 0 ∧
        (∀ i, i < r.findClockwiseIndex (r.hash key) →
          r.sortedPositions.getD i 0 < r.hash key)) ∨
      (r.findClockwiseIndex (r.hash key) = 0 ∧
        (∀ i, i < r.sortedPositions.length →
          r.sortedPositions.getD i 0 < r.hash key))) := by
  have heq := assignedNodes_eq_take_firstDedup r key R
  have hnodup : (r.assignedNodes key R).Nodup := by
    rw [heq]
    exact (List.take_sublist _ _).nodup (firstDedup_nodup _)
  have hsub : ∀ x ∈ r.assignedNodes key R, x ∈ r.getAllNodeNames := by
    intro x hx
    rw [heq] at hx
    exact ringWalkNames_subset_names r hwf _ _
      ((mem_firstDedup_iff _ _).mp (List.take_subset _ _ hx))
  refine ⟨?_, heq, hnodup, ?_, ?_, ?_, findClockwiseIndex_spec r _ hwf.sorted⟩
  · unfold HashRing.getNodesForKey
    rw [if_neg (by simpa using hne)]
  · rw [heq]
    exact List.length_take_le _ _
  · calc (r.assignedNodes key R).length
        = (r.assignedNodes key R).toFinset.card :=
          (List.toFinset_card_of_nodup hnodup).symm
      _ ≤ r.getAllNodeNames.toFinset.card := by
          apply Finset.card_le_card
          intro x hx
          rw [List.mem_toFinset]
          exact hsub x (List.mem_toFinset.mp hx)
      _ ≤ r.getAllNodeNames.length := List.toFinset_card_le _
  · intro hlt n hn
    have hD := names_subset_ringWalkNames r hwf
      (r.findClockwiseIndex (r.hash key)) n hn
    have hDmem : n ∈ firstDedup
        (ringWalkNames r (r.findClockwiseIndex (r.hash key))) :=
      (mem_firstDedup_iff _ _).mpr hD
    have hDlen : (firstDedup
        (ringWalkNames r (r.findClockwiseIndex (r.hash key)))).length < R := by
      by_contra hcon
      rw [heq, List.length_take] at hlt
      omega
    rw [heq, List.take_of_length_le (by omega)]
    exact hDmem

/-- Closed instance of `claim_C5_getNodesForKey` on the three-broker demo
ring with replication factor 5 (more than the broker count). -/
theorem claim_C5_witness :
    (RingWF demoRingABC ∧ demoRingABC.nodes ≠ [] ∧ 1 ≤ 5) ∧
    (demoRingABC.getNodesForKey "k1" 5 =
      .ok ⟨(demoRingABC.assignedNodes "k1" 5).head?,
        (demoRingABC.assignedNodes "k1" 5).tail, demoRingABC.hash "k1"⟩ ∧
    demoRingABC.assignedNodes "k1" 5 =
      (firstDedup (ringWalkNames demoRingABC
        (demoRingABC.findClockwiseIndex (demoRingABC.hash "k1")))).take 5 ∧
    (demoRingABC.assignedNodes "k1" 5).Nodup ∧
    (demoRingABC.assignedNodes "k1" 5).length ≤ 5 ∧
    (demoRingABC.assignedNodes "k1" 5).length ≤
      demoRingABC.getAllNodeNames.length ∧
    ((demoRingABC.assignedNodes "k1" 5).length < 5 →
      ∀ n ∈ demoRingABC.getAllNodeNames, n ∈ demoRingABC.assignedNodes "k1" 5) ∧
    ((demoRingABC.findClockwiseIndex (demoRingABC.hash "k1") <
        demoRingABC.sortedPositions.length ∧
      demoRingABC.hash "k1" ≤ demoRingABC.sortedPositions.getD
        (demoRingABC.findClockwiseIndex (demoRingABC.hash "k1")) 0 ∧
      (∀ i, i < demoRingABC.findClockwiseIndex (demoRingABC.hash "k1") →
        demoRingABC.sortedPositions.getD i 0 < demoRingABC.hash "k1")) ∨
     (demoRingABC.findClockwiseIndex (demoRingABC.hash "k1") = 0 ∧
      (∀ i, i < demoRingABC.sortedPositions.length →
        demoRingABC.sortedPositions.getD i 0 < demoRingABC.hash "k1")))) :=
  ⟨⟨⟨by decide, by decide, by decide, by decide⟩, by decide, by decide⟩,
    claim_C5_getNodesForKey demoRingABC "k1" 5
      ⟨by decide, by decide, by decide, by decide⟩ (by decide) (by decide)⟩

/-! ## Theorems: coordinator failover (claims C1, C2, C3) -/

theorem alookup_aset_ne {α β : Type} [DecidableEq α]
    (l : List (α × β)) (k a : α) (b : β) (h : a ≠ k) :
    alookup (aset l k b) a = alookup l a := by
  induction l with
  | nil => simp [aset, alookup, h]
  | cons hd tl ih =>
    obtain ⟨k2, v2⟩ := hd
    by_cases hk : k = k2
    · subst hk
      simp [aset, alookup, h]
    · by_cases ha : a = k2 <;> simp [aset, alookup, hk, ha, ih]

theorem healthStep_status_failed_over (T : Nat) (rec : HealthRec) (ok : Bool)
    (h : (healthStep T rec ok).1.status = FAILED_OVER) :
    rec.status = FAILED_OVER := by
  unfold healthStep at h
  cases ok with
  | true =>
    by_cases hc : rec.status = FAILED ∨ rec.status = FAILED_OVER <;>
      simp [hc] at h
  | false =>
    by_cases hc : T ≤ rec.failCount + 1 ∧ rec.status = HEALTHY
    · simp [hc] at h
    · simp [hc] at h
      exact h

theorem healthStep_fire_failure (T : Nat) (rec : HealthRec) (ok : Bool)
    (h : (healthStep T rec ok).2 = some HMEvent.fireFailure) :
    ok = false := by
  cases ok with
  | false => rfl
  | true =>
    unfold healthStep at h
    by_cases hc : rec.status = FAILED ∨ rec.status = FAILED_OVER <;>
      simp [hc] at h

theorem findCandidate_up (up : String → Bool) (allNodes : List String)
    (idx : Nat) (c : String)
    (h : findCandidate up allNodes idx = some c) : up c = true := by
  unfold findCandidate at h
  cases hf : (List.range' 1 (allNodes.length - 1)).find? (fun i =>
      up (allNodes.getD ((idx + i) % allNodes.length) "")) with
  | none => rw [hf] at h; cases h
  | some i =>
    rw [hf] at h
    have hp := List.find?_some hf
    cases h
    exact hp

theorem onFailure_preserves_inv (up pk : String → Bool) (s : CoordState)
    (x : String) (hup : up x = false) (hinv : PromotedInv s) :
    PromotedInv (onFailure up pk s x) := by
  unfold onFailure
  cases hfc : findCandidate up s.brokers (s.brokers.indexOf x) with
  | none => exact hinv
  | some c =>
    have hc : up c = true := findCandidate_up _ _ _ _ hfc
    have hcx : c ≠ x := by
      intro he
      rw [he, hup] at hc
      cases hc
    intro z hz
    by_cases hzx : z = x
    · subst hzx
      exact ⟨c, alookup_aset _ _ _, hcx⟩
    · have hst : statusOf s z = FAILED_OVER := by
        unfold statusOf at hz ⊢
        cases hh : alookup s.health x with
        | none => simpa [hh] using hz
        | some hrec =>
          rw [hh] at hz
          rwa [alookup_aset_ne _ _ _ _ hzx] at hz
      obtain ⟨y, hy, hyz⟩ := hinv z hst
      exact ⟨y, by rwa [alookup_aset_ne _ _ _ _ hzx], hyz⟩

theorem probeOne_preserves_inv (T : Nat) (up pk : String → Bool)
    (s : CoordState) (name : String) (hinv : PromotedInv s) :
    PromotedInv (probeOne T up pk s name) := by
  have hs2 : ∀ rec, alookup s.health name = some rec →
      PromotedInv
        { s with health := aset s.health name (healthStep T rec (up name)).1 } := by
    intro rec hrec z hz
    by_cases hzn : z = name
    · subst hzn
      have h1 : (healthStep T rec (up z)).1.status = FAILED_OVER := by
        unfold statusOf at hz
        simpa [alookup_aset] using hz
      have h2 : statusOf s z = FAILED_OVER := by
        unfold statusOf
        rw [hrec]
        exact healthStep_status_failed_over _ _ _ h1
      exact hinv z h2
    · have h2 : statusOf s z = FAILED_OVER := by
        unfold statusOf at hz ⊢
        rwa [alookup_aset_ne _ _ _ _ hzn] at hz
      exact hinv z h2
  unfold probeOne
  split
  · exact hinv
  · rename_i rec hrec
    dsimp only
    split
    · rename_i hev
      exact onFailure_preserves_inv up pk _ name
        (healthStep_fire_failure T rec (up name) hev) (hs2 rec hrec)
    · exact hs2 rec hrec

theorem foldl_probeOne_inv (T : Nat) (up pk : String → Bool) :
    ∀ (l : List String) (s : CoordState), PromotedInv s →
      PromotedInv (l.foldl (probeOne T up pk) s) := by
  intro l
  induction l with
  | nil => intro s h; exact h
  | cons n l ih =>
    intro s h
    exact ih _ (probeOne_preserves_inv T up pk s n h)

theorem statusOf_initCoord (B : List String) (x : String) :
    statusOf (initCoord B) x = HEALTHY := by
  unfold statusOf initCoord
  induction B with
  | nil => rfl
  | cons b B ih =>
    simp only [List.map_cons]
    by_cases h : x = b
    · simp [alookup, h, initRec]
    · simpa [alookup, h] using ih

theorem reachable_promoted_inv (T : Nat) (B : List String) (s : CoordState)
    (h : Reachable T B s) : PromotedInv s := by
  induction h with
  | init hnodup =>
    intro x hx
    rw [statusOf_initCoord] at hx
    cases hx
  | step s up pk hre ih =>
    exact foldl_probeOne_inv T up pk s.brokers s ih

/-- **C1 (counterexample).** The claim "if the `/promote` POST to the
selected candidate fails, the coordinator's failover state is unchanged
(no override entry, no FAILED_OVER mark, no event)" is false: the `catch`
in `onFailure` only logs, and the handler proceeds identically.  Refuted at
the two-broker start state with `node-a` failed over to `node-b` while the
promote oracle is constantly false. -/
theorem claim_C1_counterexample :
    ¬ (∀ (up promoteOk : String → Bool) (s : CoordState) (x c : String),
        findCandidate up s.brokers (s.brokers.indexOf x) = some c →
        promoteOk c = false →
        onFailure up promoteOk s x = s) := by
  intro hcl
  have h := hcl cexDownA cexFalse (initCoord ["node-a", "node-b"])
    "node-a" "node-b" (by decide) (by decide)
  exact absurd h (by decide)

/-- **C1 (amended).** When a responsive candidate `c` has been selected for
failed broker `x`, the `onFailure` handler's resulting state does not depend
on the `/promote` outcome at all: the override entry `x → c` is inserted,
the health record of `x` is marked FAILED_OVER, and the failover event is
appended, identically on promote success and failure (which is only
logged). -/
theorem claim_C1_amended_promote_failure_ignored (up p1 p2 : String → Bool)
    (s : CoordState) (x c : String)
    (hc : findCandidate up s.brokers (s.brokers.indexOf x) = some c)
    (hh : (alookup s.health x).isSome = true) :
    onFailure up p1 s x = onFailure up p2 s x ∧
    alookup (onFailure up p1 s x).promoted x = some c ∧
    statusOf (onFailure up p1 s x) x = FAILED_OVER ∧
    (onFailure up p1 s x).events = s.events ++ [⟨x, c⟩] := by
  unfold onFailure
  rw [hc]
  obtain ⟨hr, hh2⟩ := Option.isSome_iff_exists.mp hh
  rw [hh2]
  refine ⟨rfl, alookup_aset _ _ _, ?_, rfl⟩
  unfold statusOf
  simp only
  rw [alookup_aset]
  rfl

/-- Closed instance of `claim_C1_amended_promote_failure_ignored` at the
two-broker start state. -/
theorem claim_C1_witness :
    (findCandidate cexDownA (initCoord ["node-a", "node-b"]).brokers
        ((initCoord ["node-a", "node-b"]).brokers.indexOf "node-a") =
        some "node-b" ∧
      (alookup (initCoord ["node-a", "node-b"]).health "node-a").isSome = true) ∧
    (onFailure cexDownA cexFalse (initCoord ["node-a", "node-b"]) "node-a" =
        onFailure cexDownA cexTrue (initCoord ["node-a", "node-b"]) "node-a" ∧
      alookup (onFailure cexDownA cexFalse (initCoord ["node-a", "node-b"])
        "node-a").promoted "node-a" = some "node-b" ∧
      statusOf (onFailure cexDownA cexFalse (initCoord ["node-a", "node-b"])
        "node-a") "node-a" = FAILED_OVER ∧
      (onFailure cexDownA cexFalse (initCoord ["node-a", "node-b"])
        "node-a").events =
        (initCoord ["node-a", "node-b"]).events ++ [⟨"node-a", "node-b"⟩]) :=
  ⟨⟨by decide, by decide⟩,
    claim_C1_amended_promote_failure_ignored cexDownA cexFalse cexTrue
      (initCoord ["node-a", "node-b"]) "node-a" "node-b" (by decide) (by decide)⟩

/-- **C2 (counterexample).** The claimed invariant "in every reachable
coordinator state, the effective primary `override[raw] ?? raw` of any
broker is never FAILED or FAILED_OVER, including after a chain of
failovers" is false: after `node-a` fails over to `node-b` and `node-b`
later fails over to `node-c`, the override still maps `node-a` to
`node-b`, whose status is FAILED_OVER — the override lookup is applied
once, not transitively. -/
theorem claim_C2_counterexample :
    ¬ (∀ (s : CoordState),
        Reachable 3 ["node-a", "node-b", "node-c"] s →
        ∀ name ∈ s.brokers,
          statusOf s (resolveEffectivePrimary s.promoted name) ≠ FAILED ∧
          statusOf s (resolveEffectivePrimary s.promoted name) ≠ FAILED_OVER) := by
  intro hcl
  have hre : Reachable 3 ["node-a", "node-b", "node-c"] cexChainState :=
    .step _ cexOnlyC cexTrue (.step _ cexOnlyC cexTrue (.step _ cexOnlyC cexTrue
      (.step _ cexDownA cexTrue (.step _ cexDownA cexTrue
        (.step _ cexDownA cexTrue (.init (by decide)))))))
  exact (hcl cexChainState hre "node-a" (by decide)).2 (by decide)

/-- **C2 (amended).** In every reachable coordinator state, a FAILED_OVER
broker always has an override entry pointing to a broker other than itself,
so the effective primary of a failed-over raw primary is never that broker
itself; after a chain of failovers the effective primary may nevertheless
be FAILED_OVER (see the counterexample), since the lookup is applied once. -/
theorem claim_C2_amended_no_self_routing (T : Nat) (B : List String)
    (s : CoordState) (hs : Reachable T B s) (x : String)
    (hx : statusOf s x = FAILED_OVER) :
    resolveEffectivePrimary s.promoted x ≠ x ∧
    ∃ y, alookup s.promoted x = some y ∧ y ≠ x := by
  obtain ⟨y, hy, hyx⟩ := reachable_promoted_inv T B s hs x hx
  refine ⟨?_, y, hy, hyx⟩
  unfold resolveEffectivePrimary
  rw [hy]
  exact hyx

/-- Closed instance of `claim_C2_amended_no_self_routing` at the chained
failover state. -/
theorem claim_C2_witness :
    (statusOf cexChainState "node-a" = FAILED_OVER) ∧
    (resolveEffectivePrimary cexChainState.promoted "node-a" ≠ "node-a" ∧
      ∃ y, alookup cexChainState.promoted "node-a" = some y ∧ y ≠ "node-a") :=
  ⟨by decide,
    claim_C2_amended_no_self_routing 3 ["node-a", "node-b", "node-c"]
      cexChainState
      (.step _ cexOnlyC cexTrue (.step _ cexOnlyC cexTrue (.step _ cexOnlyC cexTrue
        (.step _ cexDownA cexTrue (.step _ cexDownA cexTrue
          (.step _ cexDownA cexTrue (.init (by decide))))))))
      "node-a" (by decide)⟩

/-- **C3 (counterexample).** The `/produce` replica computation does NOT
collapse duplicates: with override `node-b → node-c` and raw replicas
`[node-b, node-c]` under raw primary `node-a`, the list sent as
`replicateTo` is `[node-c, node-c]` — the same broker twice — and differs
from the spec's dedup formula. -/
theorem claim_C3_counterexample :
    (produceReplicas [("node-b", "node-c")] "node-a" ["node-b", "node-c"]).2 =
      ["node-c", "node-c"] ∧
    ¬ (produceReplicas [("node-b", "node-c")] "node-a"
        ["node-b", "node-c"]).2.Nodup ∧
    (produceReplicas [("node-b", "node-c")] "node-a" ["node-b", "node-c"]).2 ≠
      specReplicas [("node-b", "node-c")] "node-a" ["node-b", "node-c"] := by
  refine ⟨by decide, by decide, by decide⟩

theorem filter_dedupFoldl {α : Type} [DecidableEq α] (p : α → Bool) :
    ∀ (l acc : List α),
      (l.foldl dedupStep acc).filter p =
        (l.filter p).foldl dedupStep (acc.filter p) := by
  intro l
  induction l with
  | nil => intro acc; simp
  | cons x l ih =>
    intro acc
    have hkey : (dedupStep acc x).filter p =
        if p x then dedupStep (acc.filter p) x else acc.filter p := by
      by_cases hm : x ∈ acc
      · have hmf : x ∈ acc ∧ p x = true → x ∈ acc.filter p :=
          fun hh => List.mem_filter.mpr hh
        cases hp : p x
        · simp [dedupStep, hm]
        · simp [dedupStep, hm, hmf ⟨hm, hp⟩]
      · have hmf : x ∉ acc.filter p := fun hc => hm (List.mem_filter.mp hc).1
        cases hp : p x
        · simp [dedupStep, hm, hmf, List.filter_append, hp]
        · simp [dedupStep, hm, hmf, List.filter_append, hp]
    simp only [List.foldl_cons, List.filter_cons]
    cases hp : p x
    · rw [ih (dedupStep acc x), hkey, hp]
      simp
    · rw [ih (dedupStep acc x), hkey, hp]
      simp [List.foldl_cons]

/-- **C3 (amended).** The replica list of `/produce` is the raw replicas
mapped through the override with every occurrence of the effective primary
removed, WITHOUT collapsing duplicates; collapsing the code's list to first
occurrences recovers exactly the spec's dedup formula, and no duplicate
appears unless two raw replicas already map to the same broker. -/
theorem claim_C3_amended (promoted : List (String × String)) (rp : String)
    (rrs : List String) :
    (produceReplicas promoted rp rrs).2 =
      (rrs.map (resolveEffectivePrimary promoted)).filter
        (fun n => n ≠ resolveEffectivePrimary promoted rp) ∧
    firstDedup (produceReplicas promoted rp rrs).2 =
      specReplicas promoted rp rrs ∧
    ((rrs.map (resolveEffectivePrimary promoted)).Nodup →
      (produceReplicas promoted rp rrs).2.Nodup) := by
  refine ⟨rfl, ?_, ?_⟩
  · exact (filter_dedupFoldl _ (rrs.map (resolveEffectivePrimary promoted)) []).symm
  · intro h
    exact h.filter _

/-- Closed instance of `claim_C3_amended` where the mapped raw replicas are
duplicate-free. -/
theorem claim_C3_witness :
    ((["node-b"].map (resolveEffectivePrimary [("node-b", "node-c")])).Nodup) ∧
    ((produceReplicas [("node-b", "node-c")] "node-a" ["node-b"]).2 =
        (["node-b"].map (resolveEffectivePrimary [("node-b", "node-c")])).filter
          (fun n => n ≠ resolveEffectivePrimary [("node-b", "node-c")] "node-a") ∧
      firstDedup (produceReplicas [("node-b", "node-c")] "node-a" ["node-b"]).2 =
        specReplicas [("node-b", "node-c")] "node-a" ["node-b"] ∧
      ((["node-b"].map (resolveEffectivePrimary [("node-b", "node-c")])).Nodup →
        (produceReplicas [("node-b", "node-c")] "node-a" ["node-b"]).2.Nodup)) :=
  ⟨by decide, claim_C3_amended [("node-b", "node-c")] "node-a" ["node-b"]⟩

/-! ## Theorems: remove/re-add round trip (claim C9) -/

theorem removeNode_hashFn (r : HashRing) (n : String) :
    (r.removeNode n).hashFn = r.hashFn := by
  unfold HashRing.removeNode
  cases alookup r.nodes n with
  | none => rfl
  | some d => rfl

theorem removeNode_virtualNodeCount (r : HashRing) (n : String) :
    (r.removeNode n).virtualNodeCount = r.virtualNodeCount := by
  unfold HashRing.removeNode
  cases alookup r.nodes n with
  | none => rfl
  | some d => rfl

/-- `addNode` registers exactly the probed positions, a function of the
node name and the pre-existing occupied `ring` map alone (determinism). -/
theorem addNode_nodes_lookup (r : HashRing) (n u : String) :
    alookup (r.addNode n u).nodes n =
      some (u, addPositions r.hashFn r.virtualNodeCount r.ring n) :=
  alookup_aset _ _ _

/-- **C9 (counterexample).** Removing and re-adding a broker with the
identical name does NOT always restore its virtual positions: on
`cexRing9` (built by adding `Y` at 5, adding `X` — colliding and probing
to 6 — then removing `Y`), the round trip moves `X` from position 6 to the
now-free position 5. -/
theorem claim_C9_counterexample :
    alookup cexRing9.nodes "X" = some ("uX", [6]) ∧
    alookup ((cexRing9.removeNode "X").addNode "X" "uX").nodes "X" =
      some ("uX", [5]) ∧
    ¬ (∀ (r : HashRing) (name url : String) (d : String × List Nat),
        alookup r.nodes name = some d →
        alookup ((r.removeNode name).addNode name url).nodes name =
          some (url, d.2)) := by
  refine ⟨by decide, by decide, ?_⟩
  intro hcl
  have h := hcl cexRing9 "X" "uX" ("uX", [6]) (by decide)
  exact absurd h (by decide)

/-- **C9 (amended).** The remove/re-add round trip restores the broker's
pre-removal virtual positions exactly when those positions coincide with
what `addNode`'s deterministic hash-and-probe computes against the
post-removal occupied map — in particular whenever the probing environment
of the broker is unchanged since it was added (no interleaved removal of a
collided-with broker). -/
theorem claim_C9_amended_roundtrip (r : HashRing) (name url : String)
    (vpos : List Nat)
    (hv : alookup r.nodes name = some (url, vpos))
    (hfaith : addPositions r.hashFn r.virtualNodeCount
      (r.removeNode name).ring name = vpos) :
    alookup ((r.removeNode name).addNode name url).nodes name =
      some (url, vpos) := by
  rw [addNode_nodes_lookup, removeNode_hashFn, removeNode_virtualNodeCount,
    hfaith]

/-- Closed instance of `claim_C9_amended_roundtrip` on the two-broker demo
ring: `node-b`'s positions `[101, 300]` (101 via collision probing against
`node-a`'s 100) survive a remove/re-add because `node-a`'s positions are
still in place. -/
theorem claim_C9_witness :
    (alookup demoRingAB.nodes "node-b" = some ("http://b", [101, 300]) ∧
      addPositions demoRingAB.hashFn demoRingAB.virtualNodeCount
        (demoRingAB.removeNode "node-b").ring "node-b" = [101, 300]) ∧
    alookup ((demoRingAB.removeNode "node-b").addNode "node-b"
      "http://b").nodes "node-b" = some ("http://b", [101, 300]) :=
  ⟨⟨by decide, by decide⟩,
    claim_C9_amended_roundtrip demoRingAB "node-b" "http://b" [101, 300]
      (by decide) (by decide)⟩

end DMQ
